/-
Verification of the streak/aggregation logic of the Mithun055 GitHub
stats-card generator.

The repository consists of near-duplicate scripts that fetch GitHub
contribution data and render an SVG stats card.  This development gives a
shallow embedding of the parts the specification talks about:

* the streak calculator `computeStreaksFromDayMap` (src/unnamed/part_000,
  lines 195-232; `computeStreaksFromDateMap` in src/unnamed/part_001,
  lines 90-132, is the identical algorithm),
* the GraphQL call helpers and the year-by-year aggregation loop,
* the repository-listing pagination loops,
* the XML escaping helper `esc` and the SVG geometry arithmetic,
* the language-share percentage computation.

Calendar dates (ISO `YYYY-MM-DD` strings in the source) are embedded as
day serial numbers (`Nat`): `d.toISOString().slice(0,10)` together with
`setUTCDate(±1)` realises exactly the successor/predecessor structure of
civil days, and lexicographic order on ISO date strings agrees with
numeric order on serial numbers.  `dayNumber` below provides the concrete
encoding of a civil date as its serial number.
-/
import Mathlib

/-- A day-contribution map: finitely many (date, count) pairs, dates encoded
as day serial numbers.  Mirrors the JS object `dayMap` (`date -> count`);
JS object keys are distinct, which theorems assume where it matters. -/
abbrev DayMap := List (Nat × Nat)

/-- Serial number of a civil date (standard days-from-civil computation).
Consecutive calendar days receive consecutive numbers, and the numeric
order agrees with the lexicographic order of ISO `YYYY-MM-DD` strings the
source sorts.  Used to state concrete examples over real dates. -/
def dayNumber (y m d : Nat) : Nat :=
  let yp := if m ≤ 2 then y - 1 else y
  let era := yp / 400
  let yoe := yp % 400
  let mp := if m ≤ 2 then m + 9 else m - 3
  let doy := (153 * mp + 2) / 5 + d - 1
  let doe := yoe * 365 + yoe / 4 - yoe / 100 + doy
  era * 146097 + doe

/-- `dayMap[d] || 0` — the stored count of day `d`, zero when absent. -/
def keyCount (m : DayMap) (d : Nat) : Nat := (m.lookup d).getD 0

/-- Membership in the JS set `have = new Set(dates.filter(d => (dayMap[d] || 0) > 0))`:
for distinct keys this is exactly "the stored count of `d` is positive". -/
def hasContrib (m : DayMap) (d : Nat) : Bool := decide (0 < keyCount m d)

/-- `Object.keys(dayMap).sort()` — the keys in ascending order. -/
def sortedKeys (m : DayMap) : List Nat :=
  (m.map Prod.fst).insertionSort (· ≤ ·)

/-- The result record `{ total, currentStreak, longestStreak }`. -/
structure StreakResult where
  total : Nat
  currentStreak : Nat
  longestStreak : Nat
deriving Repr, DecidableEq

/-- The longest-streak loop of `computeStreaksFromDayMap`
(src/unnamed/part_000 lines 204-217): walk `n` consecutive days starting
at `d`, incrementing `cur` on contribution days and folding `cur` into
`longest` on gaps; after the loop `cur` is checked once more
(`if (cur > longest) longest = cur`). -/
def longestWalk (m : DayMap) : Nat → Nat → Nat → Nat → Nat
  | 0, _, cur, longest => if cur > longest then cur else longest
  | n + 1, d, cur, longest =>
    if hasContrib m d then
      longestWalk m n (d + 1) (cur + 1) longest
    else
      longestWalk m n (d + 1) 0 (if cur > longest then cur else longest)

/-- The current-streak loop (src/unnamed/part_000 lines 219-228): walk
backward from day `d`, counting while days are contribution days.  Day
numbers are `Nat`; at day `0` the walk stops after at most one more step,
which agrees with the source because no earlier day can carry a
contribution. -/
def currentStreakBack (m : DayMap) : Nat → Nat → Nat
  | 0, acc => if hasContrib m 0 then acc + 1 else acc
  | d + 1, acc =>
    if hasContrib m (d + 1) then currentStreakBack m d (acc + 1) else acc

/-- The latest date present in the map (`dates[dates.length - 1]`). -/
def latestDate (m : DayMap) : Nat := (sortedKeys m).getLastD 0

/-- `computeStreaksFromDayMap` (src/unnamed/part_000 lines 195-232):
sort the keys, return zeros on the empty map, otherwise walk every day
from the earliest to the latest key for the longest streak, walk backward
from the latest key for the current streak, and sum all stored counts for
the total. -/
def computeStreaksFromDayMap (m : DayMap) : StreakResult :=
  let dates := sortedKeys m
  if dates = [] then ⟨0, 0, 0⟩
  else
    let minD := dates.headD 0
    let maxD := dates.getLastD 0
    let longest := longestWalk m (maxD + 1 - minD) minD 0 0
    let current := currentStreakBack m maxD 0
    let total := (m.map Prod.snd).foldl (· + ·) 0
    ⟨total, current, longest⟩

/-- `computeStreaksFromDateMap` (src/unnamed/part_001 lines 90-132) is the
same algorithm line for line. -/
abbrev computeStreaksFromDateMap := computeStreaksFromDayMap

/-- C4: for the empty day-contribution map the streak calculator returns
`total = 0`, `currentStreak = 0`, `longestStreak = 0`. -/
theorem streaks_empty_map : computeStreaksFromDayMap [] = ⟨0, 0, 0⟩ := rfl

/-- C3: a streak ending exactly at the last walked day still counts thanks
to the final post-loop check; concretely, on the map
`{"2024-01-01": 2, "2024-01-02": 3}` the streak calculator returns
`currentStreak = 2`, `longestStreak = 2`, `total = 5`. -/
theorem streaks_twoDay_example :
    computeStreaksFromDayMap
      [(dayNumber 2024 1 1, 2), (dayNumber 2024 1 2, 3)] = ⟨5, 2, 2⟩ := by
  decide

/-! ### Current streak when the latest day has no contributions (C5) -/

/-- If the day we stand on has no contribution, the backward walk counts
nothing (the `while` loop breaks on its first iteration). -/
theorem currentStreakBack_eq_zero (m : DayMap) (d : Nat)
    (h : hasContrib m d = false) : currentStreakBack m d 0 = 0 := by
  cases d with
  | zero => simp [currentStreakBack, h]
  | succ e => simp [currentStreakBack, h]

/-- C5: for every non-empty day-contribution map whose latest date key has
count zero, the streak calculator returns `currentStreak = 0` — the
backward walk starts at the latest date and stops at the first day with no
contributions. -/
theorem currentStreak_zero_of_latest_zero (m : DayMap)
    (hne : m ≠ []) (hz : keyCount m (latestDate m) = 0) :
    (computeStreaksFromDayMap m).currentStreak = 0 := by
  have hkeys : sortedKeys m ≠ [] := by
    intro h
    have hlen := congrArg List.length h
    rw [sortedKeys, List.length_insertionSort, List.length_map] at hlen
    exact hne (List.length_eq_zero.mp hlen)
  have hc : hasContrib m (latestDate m) = false := by
    simp [hasContrib, hz]
  unfold computeStreaksFromDayMap
  simp only [if_neg hkeys]
  exact currentStreakBack_eq_zero m _ hc

/-- Concrete instance of `currentStreak_zero_of_latest_zero`: the map
`{day 0 ↦ 3, day 1 ↦ 0}` is non-empty, its latest key carries count zero,
and the computed current streak is zero. -/
theorem currentStreak_zero_of_latest_zero_witness :
    ([(0, 3), (1, 0)] : DayMap) ≠ [] ∧
      keyCount [(0, 3), (1, 0)] (latestDate [(0, 3), (1, 0)]) = 0 ∧
      (computeStreaksFromDayMap [(0, 3), (1, 0)]).currentStreak = 0 :=
  ⟨by decide, by decide,
    currentStreak_zero_of_latest_zero [(0, 3), (1, 0)] (by decide) (by decide)⟩

/-! ### Current streak never exceeds longest streak (C1) -/

/-- The backward walk with a seeded accumulator counts the seed plus the
run length. -/
theorem currentStreakBack_acc (m : DayMap) :
    ∀ d acc, currentStreakBack m d acc = acc + currentStreakBack m d 0 := by
  intro d
  induction d with
  | zero =>
    intro acc
    cases h : hasContrib m 0 <;> simp [currentStreakBack, h]
  | succ e ih =>
    intro acc
    cases h : hasContrib m (e + 1) <;> simp [currentStreakBack, h]
    rw [ih (acc + 1), ih 1]
    omega

/-- Every day inside the run counted by the backward walk is a
contribution day. -/
theorem currentStreakBack_run (m : DayMap) :
    ∀ d i, i < currentStreakBack m d 0 → hasContrib m (d - i) = true := by
  intro d
  induction d with
  | zero =>
    intro i hi
    cases h : hasContrib m 0 with
    | false => simp [currentStreakBack, h] at hi
    | true =>
      simp [currentStreakBack, h] at hi
      have hi0 : i = 0 := by omega
      simpa [hi0] using h
  | succ e ih =>
    intro i hi
    cases h : hasContrib m (e + 1) with
    | false => simp [currentStreakBack, h] at hi
    | true =>
      rw [currentStreakBack, if_pos h, currentStreakBack_acc m e 1] at hi
      cases i with
      | zero => simpa using h
      | succ j =>
        have hj : j < currentStreakBack m e 0 := by omega
        have := ih j hj
        simpa using this

/-- The backward walk from day `d` counts at most `d + 1` days. -/
theorem currentStreakBack_le (m : DayMap) :
    ∀ d, currentStreakBack m d 0 ≤ d + 1 := by
  intro d
  induction d with
  | zero => cases h : hasContrib m 0 <;> simp [currentStreakBack, h]
  | succ e ih =>
    cases h : hasContrib m (e + 1) <;> simp [currentStreakBack, h]
    rw [currentStreakBack_acc m e 1]
    omega

/-- Walking `n` consecutive contribution days folds `cur + n` into the
running maximum. -/
theorem longestWalk_all_run (m : DayMap) :
    ∀ n d cur longest, (∀ i, i < n → hasContrib m (d + i) = true) →
      longestWalk m n d cur longest =
        if cur + n > longest then cur + n else longest := by
  intro n
  induction n with
  | zero => intro d cur longest _; simp [longestWalk]
  | succ k ih =>
    intro d cur longest h
    have hd : hasContrib m d = true := by simpa using h 0 (by omega)
    have hrest : ∀ i, i < k → hasContrib m (d + 1 + i) = true := by
      intro i hik
      have := h (i + 1) (by omega)
      have harith : d + (i + 1) = d + 1 + i := by omega
      rwa [harith] at this
    rw [longestWalk, if_pos hd, ih (d + 1) (cur + 1) longest hrest]
    have harith : cur + 1 + k = cur + (k + 1) := by omega
    rw [harith]

/-- If the last `j` days of the walked range are all contribution days,
the longest-streak walk reports at least `j` — this is exactly the final
post-loop check paying off for a streak that ends at the last day. -/
theorem longestWalk_suffix_le (m : DayMap) :
    ∀ n d cur longest j, j ≤ n →
      (∀ i, i < j → hasContrib m (d + n - 1 - i) = true) →
      j ≤ longestWalk m n d cur longest := by
  intro n
  induction n with
  | zero => intro d cur longest j hj _; omega
  | succ k ih =>
    intro d cur longest j hj h
    by_cases hjk : j = k + 1
    · subst hjk
      have hall : ∀ i, i < k + 1 → hasContrib m (d + i) = true := by
        intro i hik
        have := h (k - i) (by omega)
        have harith : d + (k + 1) - 1 - (k - i) = d + i := by omega
        rwa [harith] at this
      rw [longestWalk_all_run m (k + 1) d cur longest hall]
      split <;> omega
    · have hjk' : j ≤ k := by omega
      have hshift : ∀ i, i < j → hasContrib m (d + 1 + k - 1 - i) = true := by
        intro i hij
        have := h i hij
        have harith : d + (k + 1) - 1 - i = d + 1 + k - 1 - i := by omega
        rwa [harith] at this
      rw [longestWalk]
      cases hd : hasContrib m d with
      | true => exact ih (d + 1) (cur + 1) longest j hjk' hshift
      | false => exact ih (d + 1) 0 _ j hjk' hshift

/-- A looked-up binding comes from the list. -/
theorem lookup_mem_keys :
    ∀ (m : DayMap) (d v : Nat), m.lookup d = some v → d ∈ m.map Prod.fst := by
  intro m
  induction m with
  | nil => intro d v h; simp [List.lookup] at h
  | cons p t ih =>
    intro d v h
    by_cases hk : d = p.1
    · simp [hk]
    · rw [List.lookup, show (d == p.1) = false by simpa using hk] at h
      exact List.mem_cons_of_mem _ (ih d v h)

/-- A contribution day is one of the map's keys. -/
theorem hasContrib_mem_keys (m : DayMap) (d : Nat)
    (h : hasContrib m d = true) : d ∈ m.map Prod.fst := by
  rw [hasContrib, decide_eq_true_iff] at h
  cases hv : m.lookup d with
  | none => rw [keyCount, hv] at h; simp at h
  | some v => exact lookup_mem_keys m d v hv

/-- In a `≤`-sorted list the default-valued head is a lower bound. -/
theorem headD_le_of_sorted :
    ∀ {l : List Nat}, l.Sorted (· ≤ ·) → ∀ x ∈ l, l.headD 0 ≤ x := by
  intro l hs x hx
  cases l with
  | nil => cases hx
  | cons a t =>
    rcases List.mem_cons.mp hx with h | h
    · simp [h]
    · simpa using List.rel_of_sorted_cons hs x h

/-- In a `≤`-sorted list the default-valued last element is an upper
bound. -/
theorem le_getLastD_of_sorted :
    ∀ {l : List Nat}, l.Sorted (· ≤ ·) → ∀ x ∈ l, x ≤ l.getLastD 0 := by
  intro l
  induction l with
  | nil => intro _ x hx; cases hx
  | cons a t ih =>
    intro hs x hx
    cases t with
    | nil =>
      rcases List.mem_cons.mp hx with h | h
      · simp [h, List.getLastD]
      · cases h
    | cons b t' =>
      have hs' : (b :: t').Sorted (· ≤ ·) := hs.of_cons
      have hlast : (a :: b :: t').getLastD 0 = (b :: t').getLastD 0 := by
        simp only [List.getLastD_cons]
      rcases List.mem_cons.mp hx with h | h
      · have hab : a ≤ b := List.rel_of_sorted_cons hs b (by simp)
        have hb : b ≤ (b :: t').getLastD 0 := ih hs' b (by simp)
        rw [hlast, h]
        omega
      · rw [hlast]; exact ih hs' x h

/-- C1: for every day-contribution map, the streak result satisfies
`currentStreak ≤ longestStreak`: the current streak is the run of
contribution days ending at the latest key, which the longest-streak walk
also observes (including via its final post-loop check). -/
theorem currentStreak_le_longestStreak (m : DayMap) :
    (computeStreaksFromDayMap m).currentStreak ≤
      (computeStreaksFromDayMap m).longestStreak := by
  by_cases hkeys : sortedKeys m = []
  · simp [computeStreaksFromDayMap, hkeys]
  · have heq : computeStreaksFromDayMap m =
        ⟨(m.map Prod.snd).foldl (· + ·) 0,
          currentStreakBack m ((sortedKeys m).getLastD 0) 0,
          longestWalk m
            ((sortedKeys m).getLastD 0 + 1 - (sortedKeys m).headD 0)
            ((sortedKeys m).headD 0) 0 0⟩ := by
      simp only [computeStreaksFromDayMap]
      rw [if_neg hkeys]
    rw [heq]
    have hsorted : (sortedKeys m).Sorted (· ≤ ·) :=
      List.sorted_insertionSort _ _
    have hmem : ∀ d, hasContrib m d = true →
        (sortedKeys m).headD 0 ≤ d ∧ d ≤ (sortedKeys m).getLastD 0 := by
      intro d hd
      have hmemk : d ∈ sortedKeys m := by
        rw [sortedKeys]
        exact (List.mem_insertionSort _).mpr (hasContrib_mem_keys m d hd)
      exact ⟨headD_le_of_sorted hsorted d hmemk,
        le_getLastD_of_sorted hsorted d hmemk⟩
    set minD := (sortedKeys m).headD 0 with hminD
    set maxD := (sortedKeys m).getLastD 0 with hmaxD
    have hminmax : minD ≤ maxD := by
      have hmemh : minD ∈ sortedKeys m := by
        cases hk : sortedKeys m with
        | nil => exact absurd hk hkeys
        | cons a t => rw [hminD, hk]; simp
      exact le_getLastD_of_sorted hsorted _ hmemh
    have hrun := currentStreakBack_run m maxD
    have hcle := currentStreakBack_le m maxD
    have hcn : currentStreakBack m maxD 0 ≤ maxD + 1 - minD := by
      by_contra hlt
      push_neg at hlt
      have hmin1 : 1 ≤ minD := by omega
      have h1 := hrun (maxD + 1 - minD) hlt
      have harith : maxD - (maxD + 1 - minD) = minD - 1 := by omega
      rw [harith] at h1
      have := (hmem _ h1).1
      omega
    apply longestWalk_suffix_le m (maxD + 1 - minD) minD 0 0 _ hcn
    intro i hic
    have harith : minD + (maxD + 1 - minD) - 1 - i = maxD - i := by omega
    rw [harith]
    exact hrun i hic

/-! ### Order-insensitivity of the streak calculator (C10) -/

/-- With distinct keys, a successful lookup is exactly membership. -/
theorem lookup_eq_some_iff_mem :
    ∀ {m : DayMap} {d v : Nat}, (m.map Prod.fst).Nodup →
      (m.lookup d = some v ↔ (d, v) ∈ m) := by
  intro m
  induction m with
  | nil => intro d v _; simp
  | cons p t ih =>
    intro d v hnd
    obtain ⟨k, w⟩ := p
    have hnd' : (t.map Prod.fst).Nodup := (List.nodup_cons.mp hnd).2
    have hknot : k ∉ t.map Prod.fst := (List.nodup_cons.mp (by simpa using hnd)).1
    by_cases hk : d = k
    · subst hk
      simp only [List.lookup_cons_self, Option.some.injEq, List.mem_cons]
      constructor
      · intro h; exact Or.inl (by simp [h])
      · rintro (h | h)
        · simpa using h.symm
        · exact absurd (List.mem_map_of_mem Prod.fst h) hknot
    · rw [List.lookup_cons, show (d == k) = false by simpa using hk]
      rw [ih hnd']
      simp only [List.mem_cons]
      constructor
      · exact Or.inr
      · rintro (h | h)
        · exact absurd (congrArg Prod.fst h) (by simpa using hk)
        · exact h

/-- Lookups agree across a permutation when the keys are distinct. -/
theorem lookup_eq_of_perm {m₁ m₂ : DayMap} (p : m₁.Perm m₂)
    (h : (m₁.map Prod.fst).Nodup) (d : Nat) :
    m₁.lookup d = m₂.lookup d := by
  have h₂ : (m₂.map Prod.fst).Nodup := ((p.map Prod.fst).nodup_iff).mp h
  cases hv : m₁.lookup d with
  | some v =>
    have hmem : (d, v) ∈ m₁ := (lookup_eq_some_iff_mem h).mp hv
    exact ((lookup_eq_some_iff_mem h₂).mpr (p.mem_iff.mp hmem)).symm
  | none =>
    symm
    rw [List.lookup_eq_none_iff] at hv ⊢
    intro q hq
    exact hv q (p.mem_iff.mpr hq)

/-- The longest-streak walk only inspects the contribution predicate. -/
theorem longestWalk_congr {m₁ m₂ : DayMap}
    (hc : ∀ d, hasContrib m₁ d = hasContrib m₂ d) :
    ∀ n d cur longest,
      longestWalk m₁ n d cur longest = longestWalk m₂ n d cur longest := by
  intro n
  induction n with
  | zero => intro d cur longest; rfl
  | succ k ih =>
    intro d cur longest
    rw [longestWalk, longestWalk, hc d]
    cases hasContrib m₂ d <;> simp [ih]

/-- The backward walk only inspects the contribution predicate. -/
theorem currentStreakBack_congr {m₁ m₂ : DayMap}
    (hc : ∀ d, hasContrib m₁ d = hasContrib m₂ d) :
    ∀ d acc, currentStreakBack m₁ d acc = currentStreakBack m₂ d acc := by
  intro d
  induction d with
  | zero => intro acc; rw [currentStreakBack, currentStreakBack, hc 0]
  | succ e ih =>
    intro acc
    rw [currentStreakBack, currentStreakBack, hc (e + 1)]
    cases hasContrib m₂ (e + 1) <;> simp [ih]

/-- `reduce((a,b)=>a+b, init)` is the seed plus the list sum. -/
theorem foldl_add_init : ∀ (l : List Nat) (a : Nat),
    l.foldl (· + ·) a = a + l.sum := by
  intro l
  induction l with
  | nil => intro a; simp
  | cons b t ih => intro a; rw [List.foldl_cons, ih, List.sum_cons]; omega

/-- Sorting makes the key sequence insensitive to insertion order. -/
theorem sortedKeys_perm_eq {m₁ m₂ : DayMap} (p : m₁.Perm m₂) :
    sortedKeys m₁ = sortedKeys m₂ :=
  List.eq_of_perm_of_sorted
    ((List.perm_insertionSort _ _).trans
      ((p.map Prod.fst).trans (List.perm_insertionSort _ _).symm))
    (List.sorted_insertionSort _ _) (List.sorted_insertionSort _ _)

/-- C10: the streak calculator depends only on the extensional contents of
the day-contribution map — for two maps holding exactly the same
date-to-count pairs (in any order, keys distinct as in a JS object), it
returns identical results, because the keys are sorted before any
computation. -/
theorem streaks_perm_invariant (m₁ m₂ : DayMap) (p : m₁.Perm m₂)
    (h : (m₁.map Prod.fst).Nodup) :
    computeStreaksFromDayMap m₁ = computeStreaksFromDayMap m₂ := by
  have hk : sortedKeys m₁ = sortedKeys m₂ := sortedKeys_perm_eq p
  have hc : ∀ d, hasContrib m₁ d = hasContrib m₂ d := by
    intro d
    rw [hasContrib, hasContrib, keyCount, keyCount, lookup_eq_of_perm p h d]
  have htot : (m₁.map Prod.snd).foldl (· + ·) 0 =
      (m₂.map Prod.snd).foldl (· + ·) 0 := by
    rw [foldl_add_init, foldl_add_init, (p.map Prod.snd).sum_eq]
  simp only [computeStreaksFromDayMap]
  rw [hk]
  by_cases hkeys : sortedKeys m₂ = []
  · rw [if_pos hkeys, if_pos hkeys]
  · rw [if_neg hkeys, if_neg hkeys, htot,
      currentStreakBack_congr hc, longestWalk_congr hc]

/-- Concrete instance of `streaks_perm_invariant`: the two-day map entered
in either order yields the same streak result. -/
theorem streaks_perm_invariant_witness :
    ([(0, 1), (1, 2)] : DayMap).Perm [(1, 2), (0, 1)] ∧
      (([(0, 1), (1, 2)] : DayMap).map Prod.fst).Nodup ∧
      computeStreaksFromDayMap [(0, 1), (1, 2)] =
        computeStreaksFromDayMap [(1, 2), (0, 1)] :=
  ⟨by decide, by decide,
    streaks_perm_invariant [(0, 1), (1, 2)] [(1, 2), (0, 1)]
      (by decide) (by decide)⟩

/-! ### Year-by-year GraphQL fetching and the skip-on-error loop (C2) -/

/-- One year's `contributionsCollection` payload: the five counters, the
calendar total, and the calendar weeks (each week a list of
(date, contributionCount) days). -/
structure YearCol where
  totalCommitContributions : Nat
  totalPullRequestContributions : Nat
  totalPullRequestReviewContributions : Nat
  totalIssueContributions : Nat
  restrictedContributionsCount : Nat
  calendarTotal : Nat
  weeks : List (List (Nat × Nat))
deriving Repr, DecidableEq

/-- The observable shape of one GraphQL HTTP exchange: `res.ok`, the
`errors` field of the response JSON (`some` exactly when the field is
present, i.e. truthy), and the payload reachable as
`json.data.user.contributionsCollection`. -/
structure GqlHttpResp where
  ok : Bool
  errors : Option (List String)
  data : YearCol
deriving Repr, DecidableEq

/-- The `{ error }` / `{ data }` result shape returned by the fetch
helpers. -/
inductive GqlResult where
  | error (e : Option (List String))
  | data (col : YearCol)
deriving Repr, DecidableEq

/-- Whether the helper reported failure (the caller's `if (r.error)`). -/
def GqlResult.isError : GqlResult → Bool
  | .error _ => true
  | .data _ => false

/-- `gqlCall` (src/unnamed/part_001 lines 37-49; `gqlRequest` in
src/unnamed/part_000 lines 143-154 is identical): failure is reported when
`!res.ok || json.errors`. -/
def gqlCall (resp : GqlHttpResp) : GqlResult :=
  if !resp.ok || resp.errors.isSome then .error resp.errors
  else .data resp.data

namespace GS

/-- `gqlRequest` of src/.github/stats-generator/generate-stats.js
(lines 149-161): this variant inspects only `json.errors` and never
`res.ok`. -/
def gqlRequest (resp : GqlHttpResp) : GqlResult :=
  if resp.errors.isSome then .error resp.errors
  else .data resp.data

end GS

/-- `dayMap[d.date] = (dayMap[d.date] || 0) + (d.contributionCount || 0)`:
update the entry in place when the key exists, append otherwise. -/
def bumpDay (m : DayMap) (d c : Nat) : DayMap :=
  if (m.lookup d).isSome then
    m.map (fun p => if p.1 = d then (p.1, p.2 + c) else p)
  else m ++ [(d, c)]

/-- The nested `for (const w of weeks) for (const d of w.contributionDays)`
merge of one year's calendar into the running day map. -/
def mergeWeeks (m : DayMap) (weeks : List (List (Nat × Nat))) : DayMap :=
  weeks.foldl (fun acc w => w.foldl (fun a p => bumpDay a p.1 p.2) acc) m

/-- The running aggregation state of the year loop
(src/unnamed/part_001 lines 139-140). -/
structure Agg where
  totalCommits : Nat
  totalPRs : Nat
  totalReviews : Nat
  totalIssues : Nat
  totalPrivate : Nat
  totalContribs : Nat
  dayMap : DayMap
deriving Repr, DecidableEq

/-- One iteration of the year loop (src/unnamed/part_001 lines 145-163):
on `r.error` the year is skipped (`continue`), otherwise every counter is
increased and the calendar days are merged. -/
def yearStep (acc : Agg) (r : GqlResult) : Agg :=
  match r with
  | .error _ => acc
  | .data col =>
    { totalCommits := acc.totalCommits + col.totalCommitContributions
      totalPRs := acc.totalPRs + col.totalPullRequestContributions
      totalReviews := acc.totalReviews + col.totalPullRequestReviewContributions
      totalIssues := acc.totalIssues + col.totalIssueContributions
      totalPrivate := acc.totalPrivate + col.restrictedContributionsCount
      totalContribs := acc.totalContribs + col.calendarTotal
      dayMap := mergeWeeks acc.dayMap col.weeks }

/-- The zero-initialised accumulator of the year loop. -/
def initAgg : Agg := ⟨0, 0, 0, 0, 0, 0, []⟩

/-- The whole year loop: fold `yearStep` over the year range, each year's
response obtained through `gqlCall`. -/
def aggregateYears (years : List Nat) (resp : Nat → GqlHttpResp) : Agg :=
  years.foldl (fun acc y => yearStep acc (gqlCall (resp y))) initAgg

/-- A concrete year payload used in counterexamples. -/
def col0 : YearCol := ⟨7, 1, 2, 3, 4, 7, [[(0, 7)]]⟩

/-- A response whose HTTP status is non-success but whose JSON body has no
`errors` field (e.g. a 500 with body `{"message": "oops"}`). -/
def httpFailResp : GqlHttpResp := ⟨false, none, col0⟩

/-- C2 counterexample: the `gqlRequest` helper of
src/.github/stats-generator/generate-stats.js does not report failure for
a non-success HTTP status without a GraphQL error payload — it returns a
`data` result, contradicting the claim that such a call "reports failure
for that year only". -/
theorem gqlRequest_httpFailure_not_reported :
    httpFailResp.ok = false ∧ httpFailResp.errors = none ∧
      (GS.gqlRequest httpFailResp).isError = false := by
  decide

/-- Skipped years are identity steps of the aggregation fold. -/
theorem foldl_yearStep_filter :
    ∀ (years : List Nat) (resp : Nat → GqlHttpResp) (acc : Agg),
      years.foldl (fun a y => yearStep a (gqlCall (resp y))) acc =
        (years.filter (fun y => !(gqlCall (resp y)).isError)).foldl
          (fun a y => yearStep a (gqlCall (resp y))) acc := by
  intro years resp
  induction years with
  | nil => intro _; rfl
  | cons y ys ih =>
    intro acc
    cases hr : gqlCall (resp y) with
    | error e =>
      rw [List.foldl_cons, hr,
        List.filter_cons_of_neg (by simp [hr, GqlResult.isError])]
      exact ih acc
    | data col =>
      rw [List.foldl_cons, hr,
        List.filter_cons_of_pos (by simp [hr, GqlResult.isError]),
        List.foldl_cons, hr]
      exact ih _

/-- C2 (amended): in the streak variants (part_000/part_001) a GraphQL
call reports failure exactly on a non-success HTTP status or a GraphQL
error payload, and the year loop's aggregate equals the aggregate over the
successful years alone — failed years are skipped and every successful
year's contribution is retained.  In generate-stats.js, `gqlRequest`
reports failure exactly on a GraphQL error payload (a non-success HTTP
status alone is not reported). -/
theorem yearLoop_skips_failed_years :
    (∀ resp : GqlHttpResp,
        (gqlCall resp).isError = (!resp.ok || resp.errors.isSome)) ∧
      (∀ resp : GqlHttpResp,
        (GS.gqlRequest resp).isError = resp.errors.isSome) ∧
      ∀ (years : List Nat) (resp : Nat → GqlHttpResp),
        aggregateYears years resp =
          aggregateYears
            (years.filter (fun y => !(gqlCall (resp y)).isError)) resp := by
  refine ⟨?_, ?_, ?_⟩
  · intro resp
    rw [gqlCall]
    cases h : (!resp.ok || resp.errors.isSome) <;>
      simp [h, GqlResult.isError]
  · intro resp
    rw [GS.gqlRequest]
    cases h : resp.errors.isSome <;> simp [h, GqlResult.isError]
  · intro years resp
    rw [aggregateYears, aggregateYears]
    exact foldl_yearStep_filter years resp initAgg

/-! ### Repository-listing pagination (C9) -/

/-- An owned repository as used by the aggregators. -/
structure Repo where
  fullName : String
  stargazersCount : Nat
deriving Repr, DecidableEq

/-- One repository-listing page exchange: `res.ok` and the parsed body
(`none` models a JSON body that is not an array). -/
structure PageResp where
  ok : Bool
  body : Option (List Repo)
deriving Repr, DecidableEq

/-- A page the loop continues past: successful, an array, and at least a
full page (`per = 100`) of results. -/
def fullPage (r : PageResp) : Bool :=
  r.ok &&
    match r.body with
    | none => false
    | some arr => decide (100 ≤ arr.length)

/-- A successful page carrying fewer than a full page of results — by the
claim, pagination must stop right after receiving one. -/
def shortPage (r : PageResp) : Bool :=
  r.ok &&
    match r.body with
    | none => false
    | some arr => decide (arr.length < 100)

/-- The `while (out.length < limit)` pagination loop of `fetchOwnedRepos`
(src/unnamed/part_001 lines 52-68, identical in part_000 lines 157-173):
stop on a failed request, a non-array body, an empty page, a short page
(`arr.length < per` with `per = 100`), or when the page ceiling is hit
(`if (page > 10) break`, represented by `fuel` running out).  The second
component records which pages were requested. -/
def fetchLoop (resp : Nat → PageResp) (limit : Nat) :
    Nat → Nat → List Repo → List Nat → List Repo × List Nat
  | fuel, page, out, log =>
    if out.length < limit then
      if !(resp page).ok then (out, log ++ [page])
      else
        match (resp page).body with
        | none => (out, log ++ [page])
        | some arr =>
          if arr.length = 0 then (out, log ++ [page])
          else if arr.length < 100 then (out ++ arr, log ++ [page])
          else
            match fuel with
            | 0 => (out ++ arr, log ++ [page])
            | fuel' + 1 =>
              fetchLoop resp limit fuel' (page + 1) (out ++ arr) (log ++ [page])
    else (out, log)

/-- `fetchOwnedRepos(limit)`: run the loop from page 1 (pages 1 through 10
are permitted, hence fuel 9) and return `out.slice(0, limit)` together
with the request log. -/
def fetchOwnedRepos (resp : Nat → PageResp) (limit : Nat) :
    List Repo × List Nat :=
  ((fetchLoop resp limit 9 1 [] []).1.take limit,
    (fetchLoop resp limit 9 1 [] []).2)

/-- The `while (true)` star-summing loop of `fetchTotalStars`
(src/.github/stats-generator/generate-stats.js lines 180-201): same break
structure, no `limit` guard, ceiling `if (page > 50) break`. -/
def starsLoop (resp : Nat → PageResp) :
    Nat → Nat → Nat → List Nat → Nat × List Nat
  | fuel, page, totalStars, log =>
    if !(resp page).ok then (totalStars, log ++ [page])
    else
      match (resp page).body with
      | none => (totalStars, log ++ [page])
      | some repos =>
        if repos.length = 0 then (totalStars, log ++ [page])
        else if repos.length < 100 then
          (repos.foldl (fun s rep => s + rep.stargazersCount) totalStars,
            log ++ [page])
        else
          match fuel with
          | 0 =>
            (repos.foldl (fun s rep => s + rep.stargazersCount) totalStars,
              log ++ [page])
          | fuel' + 1 =>
            starsLoop resp fuel' (page + 1)
              (repos.foldl (fun s rep => s + rep.stargazersCount) totalStars)
              (log ++ [page])

/-- `fetchTotalStars`: pages 1 through 50 are permitted (fuel 49). -/
def fetchTotalStars (resp : Nat → PageResp) : Nat × List Nat :=
  starsLoop resp 49 1 0 []

/-- Shape of the request log produced by the pagination loop: either no
page was requested, or the pages `page, page+1, …, page+k` were requested
in order and every one of them but the last returned a full page. -/
theorem fetchLoop_log_spec (resp : Nat → PageResp) (limit : Nat) :
    ∀ fuel page out log,
      (fetchLoop resp limit fuel page out log).2 = log ∨
        ∃ k, k ≤ fuel ∧
          (fetchLoop resp limit fuel page out log).2 =
            log ++ List.range' page (k + 1) ∧
          ∀ i, page ≤ i → i < page + k → fullPage (resp i) = true := by
  intro fuel
  induction fuel with
  | zero =>
    intro page out log
    by_cases hlim : out.length < limit
    · right
      refine ⟨0, Nat.le_refl 0, ?_, by intro i h1 h2; omega⟩
      rw [fetchLoop, if_pos hlim, List.range'_one]
      split
      · rfl
      · split
        · rfl
        · split
          · rfl
          · split
            · rfl
            · rfl
    · left
      rw [fetchLoop, if_neg hlim]
  | succ f ih =>
    intro page out log
    by_cases hlim : out.length < limit
    · rw [fetchLoop, if_pos hlim]
      cases hok : (resp page).ok with
      | false =>
        right
        refine ⟨0, by omega, ?_, by intro i h1 h2; omega⟩
        simp [hok, List.range'_one]
      | true =>
        simp only [hok, Bool.not_true, Bool.false_eq_true, if_false]
        cases hbody : (resp page).body with
        | none =>
          right
          exact ⟨0, by omega, by simp [List.range'_one], by intro i h1 h2; omega⟩
        | some arr =>
          simp only []
          by_cases hlen0 : arr.length = 0
          · rw [if_pos hlen0]
            right
            exact ⟨0, by omega, by simp [List.range'_one], by intro i h1 h2; omega⟩
          · rw [if_neg hlen0]
            by_cases hlenshort : arr.length < 100
            · rw [if_pos hlenshort]
              right
              exact ⟨0, by omega, by simp [List.range'_one], by intro i h1 h2; omega⟩
            · rw [if_neg hlenshort]
              have hfull : fullPage (resp page) = true := by
                rw [fullPage, hok, hbody]
                simpa using by omega
              rcases ih (page + 1) (out ++ arr) (log ++ [page]) with h | ⟨k, hk, heq, hf⟩
              · right
                refine ⟨0, by omega, ?_, by intro i h1 h2; omega⟩
                rw [h, List.range'_one]
              · right
                refine ⟨k + 1, by omega, ?_, ?_⟩
                · rw [heq, List.range'_succ, List.append_assoc]
                  rfl
                · intro i h1 h2
                  by_cases hi : i = page
                  · rw [hi]; exact hfull
                  · exact hf i (by omega) (by omega)
    · left
      rw [fetchLoop, if_neg hlim]

/-- Shape of the star-summing loop's request log: pages
`page, …, page+k` are requested in order and every one but the last
returned a full page. -/
theorem starsLoop_log_spec (resp : Nat → PageResp) :
    ∀ fuel page totalStars log,
      ∃ k, k ≤ fuel ∧
        (starsLoop resp fuel page totalStars log).2 =
          log ++ List.range' page (k + 1) ∧
        ∀ i, page ≤ i → i < page + k → fullPage (resp i) = true := by
  intro fuel
  induction fuel with
  | zero =>
    intro page totalStars log
    refine ⟨0, Nat.le_refl 0, ?_, by intro i h1 h2; omega⟩
    rw [starsLoop, List.range'_one]
    split
    · rfl
    · split
      · rfl
      · split
        · rfl
        · split
          · rfl
          · rfl
  | succ f ih =>
    intro page totalStars log
    rw [starsLoop]
    cases hok : (resp page).ok with
    | false =>
      refine ⟨0, by omega, ?_, by intro i h1 h2; omega⟩
      simp [hok, List.range'_one]
    | true =>
      simp only [hok, Bool.not_true, Bool.false_eq_true, if_false]
      cases hbody : (resp page).body with
      | none =>
        exact ⟨0, by omega, by simp [List.range'_one], by intro i h1 h2; omega⟩
      | some arr =>
        simp only []
        by_cases hlen0 : arr.length = 0
        · rw [if_pos hlen0]
          exact ⟨0, by omega, by simp [List.range'_one], by intro i h1 h2; omega⟩
        · rw [if_neg hlen0]
          by_cases hlenshort : arr.length < 100
          · rw [if_pos hlenshort]
            exact ⟨0, by omega, by simp [List.range'_one], by intro i h1 h2; omega⟩
          · rw [if_neg hlenshort]
            have hfull : fullPage (resp page) = true := by
              rw [fullPage, hok, hbody]
              simpa using by omega
            obtain ⟨k, hk, heq, hf⟩ := ih (page + 1)
              (arr.foldl (fun s rep => s + rep.stargazersCount) totalStars)
              (log ++ [page])
            refine ⟨k + 1, by omega, ?_, ?_⟩
            · rw [heq, List.range'_succ, List.append_assoc]
              rfl
            · intro i h1 h2
              by_cases hi : i = page
              · rw [hi]; exact hfull
              · exact hf i (by omega) (by omega)

/-- A short page is not a full page. -/
theorem not_full_of_short (r : PageResp) (h : shortPage r = true) :
    fullPage r = false := by
  rw [shortPage] at h
  rw [fullPage]
  cases hok : r.ok <;> cases hbody : r.body <;> simp_all

/-- C9: repository-listing pagination terminates — the number of page
requests is bounded by the hard ceiling (10 pages for the repo listing,
50 for the star-summing loop), and once a request returns fewer
repositories than the fixed page size of 100, no later page is requested
(every requested page is at most the short one). -/
theorem pagination_bounded_and_short_page_stops :
    (∀ (resp : Nat → PageResp) (limit : Nat),
        (fetchOwnedRepos resp limit).2.length ≤ 10) ∧
      (∀ resp : Nat → PageResp, (fetchTotalStars resp).2.length ≤ 50) ∧
      (∀ (resp : Nat → PageResp) (limit p : Nat),
        shortPage (resp p) = true → p ∈ (fetchOwnedRepos resp limit).2 →
        ∀ q ∈ (fetchOwnedRepos resp limit).2, q ≤ p) ∧
      ∀ (resp : Nat → PageResp) (p : Nat),
        shortPage (resp p) = true → p ∈ (fetchTotalStars resp).2 →
        ∀ q ∈ (fetchTotalStars resp).2, q ≤ p := by
  have howned : ∀ (resp : Nat → PageResp) (limit : Nat),
      (fetchOwnedRepos resp limit).2 = (fetchLoop resp limit 9 1 [] []).2 := by
    intro resp limit; rfl
  refine ⟨?_, ?_, ?_, ?_⟩
  · intro resp limit
    rw [howned]
    rcases fetchLoop_log_spec resp limit 9 1 [] [] with h | ⟨k, hk, heq, _⟩
    · rw [h]; simp
    · rw [heq]
      simp
      omega
  · intro resp
    obtain ⟨k, hk, heq, _⟩ := starsLoop_log_spec resp 49 1 0 []
    rw [fetchTotalStars, heq]
    simp
    omega
  · intro resp limit p hshort hmem
    rw [howned] at hmem ⊢
    rcases fetchLoop_log_spec resp limit 9 1 [] [] with h | ⟨k, hk, heq, hfull⟩
    · rw [h] at hmem; cases hmem
    · rw [heq] at hmem ⊢
      rw [List.nil_append] at hmem ⊢
      obtain ⟨i, hi, rfl⟩ := List.mem_range'.mp hmem
      have hip : i = k := by
        by_contra hik
        have := hfull (1 + 1 * i) (by omega) (by omega)
        rw [not_full_of_short _ hshort] at this
        cases this
      intro q hq
      obtain ⟨j, hj, rfl⟩ := List.mem_range'.mp hq
      omega
  · intro resp p hshort hmem
    rw [fetchTotalStars] at hmem ⊢
    obtain ⟨k, hk, heq, hfull⟩ := starsLoop_log_spec resp 49 1 0 []
    rw [heq] at hmem ⊢
    rw [List.nil_append] at hmem ⊢
    obtain ⟨i, hi, rfl⟩ := List.mem_range'.mp hmem
    have hip : i = k := by
      by_contra hik
      have := hfull (1 + 1 * i) (by omega) (by omega)
      rw [not_full_of_short _ hshort] at this
      cases this
    intro q hq
    obtain ⟨j, hj, rfl⟩ := List.mem_range'.mp hq
    omega

/-- A mocked repository-listing endpoint: page 1 returns a full page of
100 repositories, every later page a single repository. -/
def pageRespSeq : Nat → PageResp := fun p =>
  if p = 1 then ⟨true, some (List.replicate 100 ⟨"r", 0⟩)⟩
  else ⟨true, some [⟨"r", 0⟩]⟩

/-- Concrete instance of `pagination_bounded_and_short_page_stops`: with
the mocked endpoint, page 2 is short, pages [1, 2] are requested, and
indeed no page beyond 2 is ever requested by either loop. -/
theorem pagination_bounded_and_short_page_stops_witness :
    shortPage (pageRespSeq 2) = true ∧
      2 ∈ (fetchOwnedRepos pageRespSeq 200).2 ∧
      (∀ q ∈ (fetchOwnedRepos pageRespSeq 200).2, q ≤ 2) ∧
      2 ∈ (fetchTotalStars pageRespSeq).2 ∧
      ∀ q ∈ (fetchTotalStars pageRespSeq).2, q ≤ 2 :=
  ⟨by decide, by decide,
    pagination_bounded_and_short_page_stops.2.2.1 pageRespSeq 200 2
      (by decide) (by decide),
    by decide,
    pagination_bounded_and_short_page_stops.2.2.2 pageRespSeq 2
      (by decide) (by decide)⟩

/-! ### Renderer geometry: percentages and segment widths (C7) -/

/-- `Math.round` on the finite values arising here: round half up. -/
def jsRound (q : ℚ) : ℤ := ⌊q + 1 / 2⌋

/-- The per-language share `pct: langSum ? (bytes/langSum)*100 : 0`
(src/unnamed/part_001 line 175, src/unnamed/part_000 line 292). -/
def langPct (bytes langSum : Nat) : ℚ :=
  if langSum = 0 then 0 else (bytes : ℚ) / (langSum : ℚ) * 100

/-- Stacked-bar segment width of src/unnamed/part_000 line 355:
`Math.max(1, Math.round((t.pct / 100) * langBarW))` with
`langBarW = 980 - 48 - 28 = 904`. -/
def segWidth (pct : ℚ) : ℤ := max 1 (jsRound (pct / 100 * 904))

namespace P1

/-- Stacked-bar segment width of src/unnamed/part_001 line 200:
`Math.round((t.pct/100) * barW)` with `barW = (920-40) - 40 = 840` — note
the missing minimum-width clamp. -/
def segWidth (pct : ℚ) : ℤ := jsRound (pct / 100 * 840)

end P1

/-- `ringPercent = Math.round((currentStreak / ringMax) * 100)` with
`ringMax = Math.max(currentStreak, longestStreak, 1)`
(src/unnamed/part_000 lines 341-342, part_001 lines 189-190). -/
def ringPercent (current longest : Nat) : ℤ :=
  jsRound ((current : ℚ) / ((max (max current longest) 1 : Nat) : ℚ) * 100)

namespace GS

/-- `percent = Math.min(100, Math.round((total / goal) * 100))` with
`goal = 2000` (src/.github/stats-generator/generate-stats.js
lines 302-303). -/
def percent (total : Nat) : ℤ := min 100 (jsRound ((total : ℚ) / 2000 * 100))

end GS

/-- Rounding a non-negative value is non-negative. -/
theorem jsRound_nonneg (q : ℚ) (h : 0 ≤ q) : 0 ≤ jsRound q := by
  rw [jsRound]
  rw [Int.le_floor]
  push_cast
  linarith

/-- Rounding a value that is at most `n` stays at most `n`. -/
theorem jsRound_le_of_le (q : ℚ) (n : ℤ) (h : q ≤ (n : ℚ)) :
    jsRound q ≤ n := by
  have : ⌊q + 1 / 2⌋ < n + 1 := by
    rw [Int.floor_lt]
    push_cast
    linarith
  rw [jsRound]
  omega

/-- C7 counterexample: a language holding 1 of 2000 bytes has a non-zero
share of 0.05 % which rounds to zero, yet the part_001 renderer draws its
segment with width 0, not the minimum 1 unit the claim requires. -/
theorem p1_segment_width_zero_example :
    0 < langPct 1 2000 ∧ jsRound (langPct 1 2000) = 0 ∧
      P1.segWidth (langPct 1 2000) = 0 := by
  refine ⟨by norm_num [langPct], ?_, ?_⟩
  · norm_num [jsRound, langPct, Int.floor_eq_iff]
  · norm_num [P1.segWidth, jsRound, langPct, Int.floor_eq_iff]

/-- C7 (amended): the geometry never yields a negative dimension — shares
are non-negative, ring percentages lie in [0, 100] (both the streak ring
and the generate-stats.js goal ring), and the part_000 stacked-bar
segment width is always at least 1.  The part_001 variant, however, lacks
the minimum-width clamp: its segment width is only guaranteed
non-negative and can be 0 for a non-zero share that rounds to zero. -/
theorem geometry_nonneg_and_clamped :
    (∀ bytes langSum : Nat, 0 ≤ langPct bytes langSum) ∧
      (∀ pct : ℚ, 1 ≤ segWidth pct) ∧
      (∀ bytes langSum : Nat, 0 ≤ P1.segWidth (langPct bytes langSum)) ∧
      (∀ current longest : Nat,
        0 ≤ ringPercent current longest ∧ ringPercent current longest ≤ 100) ∧
      ∀ total : Nat, 0 ≤ GS.percent total ∧ GS.percent total ≤ 100 := by
  have hpct : ∀ bytes langSum : Nat, 0 ≤ langPct bytes langSum := by
    intro bytes langSum
    rw [langPct]
    split
    · exact le_refl 0
    · positivity
  refine ⟨hpct, ?_, ?_, ?_, ?_⟩
  · intro pct
    exact le_max_left 1 _
  · intro bytes langSum
    rw [P1.segWidth]
    apply jsRound_nonneg
    have := hpct bytes langSum
    positivity
  · intro current longest
    have hM : (1 : ℚ) ≤ ((max (max current longest) 1 : Nat) : ℚ) := by
      have : 1 ≤ max (max current longest) 1 := le_max_right _ 1
      exact_mod_cast this
    have hcM : (current : ℚ) ≤ ((max (max current longest) 1 : Nat) : ℚ) := by
      have : current ≤ max (max current longest) 1 :=
        le_trans (le_max_left _ _) (le_max_left _ _)
      exact_mod_cast this
    have hq0 : 0 ≤ (current : ℚ) /
        ((max (max current longest) 1 : Nat) : ℚ) * 100 := by positivity
    have hq100 : (current : ℚ) /
        ((max (max current longest) 1 : Nat) : ℚ) * 100 ≤ 100 := by
      have hdiv : (current : ℚ) /
          ((max (max current longest) 1 : Nat) : ℚ) ≤ 1 :=
        (div_le_one (by linarith)).mpr hcM
      linarith
    exact ⟨jsRound_nonneg _ hq0, jsRound_le_of_le _ 100 (by exact_mod_cast hq100)⟩
  · intro total
    constructor
    · apply le_min
      · norm_num
      · apply jsRound_nonneg
        positivity
    · exact min_le_left 100 _

/-! ### Language shares sum to 100 % (C8) -/

/-- `langEntries.reduce((s,[_l,b]) => s + b, 0)` — the total byte count
(src/unnamed/part_001 line 173, part_000 line 291). -/
def langSum (entries : List (String × Nat)) : Nat :=
  entries.foldl (fun s e => s + e.2) 0

/-- The share of every entry of the mapping, each computed by the source's
formula `langSum ? (bytes/langSum)*100 : 0`. -/
def pctShares (entries : List (String × Nat)) : List ℚ :=
  entries.map (fun e => langPct e.2 (langSum entries))

/-- The byte-summing fold with a seed counts the seed plus the total. -/
theorem foldl_addSnd_init : ∀ (l : List (String × Nat)) (a : Nat),
    l.foldl (fun s e => s + e.2) a = a + l.foldl (fun s e => s + e.2) 0 := by
  intro l
  induction l with
  | nil => intro a; simp
  | cons p t ih =>
    intro a
    rw [List.foldl_cons, List.foldl_cons, ih (a + p.2), ih (0 + p.2)]
    omega

/-- Summing the exact shares over a list gives the total over the
denominator. -/
theorem sum_map_share : ∀ (l : List (String × Nat)) (S : ℚ),
    (l.map (fun e => (e.2 : ℚ) / S * 100)).sum = ((langSum l : Nat) : ℚ) / S * 100 := by
  intro l
  induction l with
  | nil => intro S; simp [langSum]
  | cons p t ih =>
    intro S
    rw [List.map_cons, List.sum_cons, ih]
    have hls : langSum (p :: t) = p.2 + langSum t := by
      rw [langSum, List.foldl_cons, foldl_addSnd_init]
      rw [langSum]
      omega
    rw [hls]
    push_cast
    ring

/-- C8 counterexample: the one-entry mapping `{"X": 0}` is non-empty, yet
its shares sum to 0, not to ~100 % — the `langSum ? … : 0` fallback kicks
in when the total byte count is zero. -/
theorem pct_sum_zero_map_example :
    ([("X", 0)] : List (String × Nat)) ≠ [] ∧
      (pctShares [("X", 0)]).sum = 0 ∧
      (pctShares [("X", 0)]).sum ≠ 100 := by
  refine ⟨by simp, ?_, ?_⟩ <;> simp [pctShares, langSum, langPct]

/-- C8 (amended): for every language-bytes mapping whose total byte count
is positive, the shares `bytes / sum(all bytes) × 100` taken across all
entries of the mapping sum to exactly 100. -/
theorem pct_sum_eq_100 (entries : List (String × Nat))
    (h : 0 < langSum entries) : (pctShares entries).sum = 100 := by
  have hS : ((langSum entries : Nat) : ℚ) ≠ 0 := by
    have : (0 : ℚ) < ((langSum entries : Nat) : ℚ) := by exact_mod_cast h
    linarith
  have hmap : pctShares entries =
      entries.map (fun e => (e.2 : ℚ) / ((langSum entries : Nat) : ℚ) * 100) := by
    rw [pctShares]
    apply List.map_congr_left
    intro e _
    rw [langPct, if_neg (by omega)]
  rw [hmap, sum_map_share, div_self hS, one_mul]

/-- Concrete instance of `pct_sum_eq_100`: the mapping
`{"A": 1, "B": 3}` has positive total and its shares (25 % and 75 %) sum
to 100 %. -/
theorem pct_sum_eq_100_witness :
    0 < langSum [("A", 1), ("B", 3)] ∧
      (pctShares [("A", 1), ("B", 3)]).sum = 100 :=
  ⟨by decide, pct_sum_eq_100 [("A", 1), ("B", 3)] (by decide)⟩

/-! ### XML escaping of interpolated names (C6) -/

/-- `String.prototype.replaceAll` with a one-character pattern: every
occurrence of `c` in the original string becomes `r` (replacements are
not rescanned). -/
def replaceAllChar (s : List Char) (c : Char) (r : List Char) : List Char :=
  match s with
  | [] => []
  | x :: t => (if x = c then r else [x]) ++ replaceAllChar t c r

/-- `esc` (src/unnamed/part_000 line 116, src/unnamed/part_001 line 18,
src/.github/stats-generator/generate-stats.js lines 248-250):
`.replaceAll("&","&amp;").replaceAll("<","&lt;").replaceAll(">","&gt;")`
applied in that order. -/
def esc (s : List Char) : List Char :=
  replaceAllChar
    (replaceAllChar (replaceAllChar s '&' "&amp;".toList) '<' "&lt;".toList)
    '>' "&gt;".toList

/-- The specification's per-character description of the escaping: each of
`&`, `<`, `>` becomes its entity, every other character is kept. -/
def escChar (c : Char) : List Char :=
  if c = '&' then "&amp;".toList
  else if c = '<' then "&lt;".toList
  else if c = '>' then "&gt;".toList
  else [c]

/-- `escChar` applied to every character in turn. -/
def escSpec : List Char → List Char
  | [] => []
  | c :: t => escChar c ++ escSpec t

/-- Checker for the remainder of a double-quoted XML attribute value
(XML 1.0 `AttValue ::= '"' ([^<&"] | Reference)* '"'`): the input is what
follows the opening quote; it must consist of characters other than `"`,
`<` and bare `&` (an `&` may only start one of the produced entities) and
be terminated by the closing quote with nothing after it. -/
def attrTail : List Char → Bool
  | [] => false
  | c :: t =>
    if c = '"' then t.isEmpty
    else if c = '<' then false
    else if c = '&' then
      match t with
      | 'a' :: 'm' :: 'p' :: ';' :: r => attrTail r
      | 'l' :: 't' :: ';' :: r => attrTail r
      | 'g' :: 't' :: ';' :: r => attrTail r
      | _ => false
    else attrTail t

/-- The `aria-label="${esc(displayName)} stats"` attribute of the rendered
SVG (src/unnamed/part_000 line 427): well-formed exactly when what follows
the opening quote — the escaped name and the literal ` stats"` — parses as
a complete attribute value. -/
def wellFormedAriaLabel (name : List Char) : Bool :=
  attrTail (esc name ++ " stats\"".toList)

/-- `replaceAllChar` distributes over append. -/
theorem replaceAllChar_append (a b : List Char) (c : Char) (r : List Char) :
    replaceAllChar (a ++ b) c r =
      replaceAllChar a c r ++ replaceAllChar b c r := by
  induction a with
  | nil => rfl
  | cons x t ih => simp [replaceAllChar, ih]

/-- The three sequential `replaceAll`s act character by character. -/
theorem esc_cons (x : Char) (t : List Char) :
    esc (x :: t) = escChar x ++ esc t := by
  by_cases h1 : x = '&'
  · subst h1; rfl
  · by_cases h2 : x = '<'
    · subst h2; rfl
    · by_cases h3 : x = '>'
      · subst h3; rfl
      · simp [esc, replaceAllChar, escChar, h1, h2, h3]

/-- Consuming an `&amp;` entity. -/
theorem attrTail_entity_amp (r : List Char) :
    attrTail ('&' :: 'a' :: 'm' :: 'p' :: ';' :: r) = attrTail r := rfl

/-- Consuming an `&lt;` entity. -/
theorem attrTail_entity_lt (r : List Char) :
    attrTail ('&' :: 'l' :: 't' :: ';' :: r) = attrTail r := rfl

/-- Consuming an `&gt;` entity. -/
theorem attrTail_entity_gt (r : List Char) :
    attrTail ('&' :: 'g' :: 't' :: ';' :: r) = attrTail r := rfl

/-- Consuming an ordinary attribute-value character. -/
theorem attrTail_other (c : Char) (t : List Char)
    (h1 : c ≠ '"') (h2 : c ≠ '<') (h3 : c ≠ '&') :
    attrTail (c :: t) = attrTail t := by
  rw [attrTail.eq_def]
  dsimp only
  rw [if_neg h1, if_neg h2, if_neg h3]

/-- The escaped form of a quote-free string is transparent to the
attribute-value checker. -/
theorem attrTail_esc_append (s : List Char) (r : List Char)
    (h : '"' ∉ s) : attrTail (esc s ++ r) = attrTail r := by
  induction s with
  | nil => rfl
  | cons x t ih =>
    have hx : x ≠ '"' := by
      intro e
      exact h (by rw [e]; exact List.mem_cons_self _ _)
    have ht : '"' ∉ t := fun hm => h (List.mem_cons_of_mem _ hm)
    rw [esc_cons, List.append_assoc]
    by_cases h1 : x = '&'
    · subst h1
      rw [show escChar '&' ++ (esc t ++ r) =
          '&' :: 'a' :: 'm' :: 'p' :: ';' :: (esc t ++ r) from rfl]
      rw [attrTail_entity_amp]
      exact ih ht
    · by_cases h2 : x = '<'
      · subst h2
        rw [show escChar '<' ++ (esc t ++ r) =
            '&' :: 'l' :: 't' :: ';' :: (esc t ++ r) from rfl]
        rw [attrTail_entity_lt]
        exact ih ht
      · by_cases h3 : x = '>'
        · subst h3
          rw [show escChar '>' ++ (esc t ++ r) =
              '&' :: 'g' :: 't' :: ';' :: (esc t ++ r) from rfl]
          rw [attrTail_entity_gt]
          exact ih ht
        · rw [show escChar x = [x] by simp [escChar, h1, h2, h3]]
          rw [List.singleton_append, attrTail_other x _ hx h2 h1]
          exact ih ht

/-- A display name used in the counterexample: it contains `<` (so the
claim applies to it) and also a double quote. -/
def badName : List Char := "A\"<B".toList

/-- C6 counterexample: `esc` leaves `"` untouched, so for the display name
`A"<B` — which contains `<` and therefore falls under the claim — the
`aria-label="…"` attribute of the rendered SVG is cut short by the stray
quote and the document is not well-formed XML. -/
theorem esc_quote_breaks_attribute :
    '<' ∈ badName ∧ wellFormedAriaLabel badName = false := by
  decide

/-- C6 (amended): `esc` replaces every occurrence of `&`, `<`, `>` by
`&amp;`, `&lt;`, `&gt;` and keeps all other characters — in particular it
does not touch `"` — so the rendered attribute (and with it the document)
is well-formed for every interpolated name that contains no double
quote. -/
theorem esc_replaces_entities_and_attr_wellFormed :
    (∀ s : List Char, esc s = escSpec s) ∧
      ∀ s : List Char, '"' ∉ s → wellFormedAriaLabel s = true := by
  constructor
  · intro s
    induction s with
    | nil => rfl
    | cons x t ih => rw [esc_cons, escSpec, ih]
  · intro s h
    rw [wellFormedAriaLabel, attrTail_esc_append s _ h]
    rfl

/-- Concrete instance of `esc_replaces_entities_and_attr_wellFormed`: the
language name `C++` holds no quote and its interpolation leaves the
attribute well-formed. -/
theorem esc_attr_wellFormed_witness :
    ('"' ∉ "C++".toList) ∧ wellFormedAriaLabel ("C++".toList) = true :=
  ⟨by decide, esc_replaces_entities_and_attr_wellFormed.2 "C++".toList (by decide)⟩
